import Mathlib

/-!
# Verification of the `memory` IPLD node package

A shallow embedding of `memory/node.go` from the go-ipld repository:
the `Node`/`Link` data model (`IsLink`, `LinkCast`, `Links`, `LinkStr`,
`Hash`, `Equal`) and the token-based streaming traversal (`Node.Read` and
the recursive helper `read`).

Go values of type `interface{}` that the package inspects are modelled by
the inductive type `Value`; a Go `map[string]interface{}` (the `Node`
type) is modelled as an association list with unique keys, since a Go map
holds each key at most once.  Go `error` results are modelled by
`Option GoError` (`none` is the `nil` error), and the two sentinel errors
`stream.NodeReadSkip` / `stream.NodeReadAbort` are constructors of
`GoError`.
-/

namespace memory

/-- A Go `interface{}` value as inspected by the package: a `Node`
(map of string keys to values), a slice, or a scalar.  `null` models the
`nil` interface value. -/
inductive Value where
  | node (entries : List (String × Value))
  | arr  (elems : List Value)
  | str  (s : String)
  | int  (n : Int)
  | bool (b : Bool)
  | null

/-- `Node` is `map[string]interface{}` in the source, modelled as an
association list (a Go map has unique keys). -/
abbrev Node := List (String × Value)

/-- `type Link Node` in the source. -/
abbrev Link := Node

/-- `LinkKey = "/"`, the key for merkle-links. -/
def LinkKey : String := "/"

/-- A Go `error` value as used by the traversal: the two sentinel errors
of the `coding/stream` package and ordinary message errors
(`errors.New(s)` is `GoError.msg s`). -/
inductive GoError where
  | nodeReadSkip
  | nodeReadAbort
  | msg (s : String)
  deriving DecidableEq

/-- A path segment: Go pushes string keys and integer indices onto the
`path []interface{}` argument. -/
inductive Seg where
  | str (s : String)
  | idx (i : Nat)
  deriving DecidableEq

/-- A traversal token together with its payload: the `stream` package's
`TokenNode`, `TokenKey`, `TokenEndNode`, `TokenArray`, `TokenIndex`,
`TokenEndArray`, `TokenValue` (the spec's StartMap/Key/EndMap/StartArray/
Index/EndArray/Value), carrying the `value interface{}` argument the
callback receives with it. -/
inductive Token where
  | node
  | key (k : String)
  | endNode
  | array
  | index (i : Nat)
  | endArray
  | value (v : Value)

/-- `stream.ReadFun`: the traversal callback.  It receives the current
path and the token and returns a Go error (`none` = continue). -/
abbrev ReadFun := List Seg → Token → Option GoError

/-- One callback invocation: the path and token it was given. -/
abbrev Event := List Seg × Token

/-- Association-list lookup, first match wins (a Go map lookup; with
unique keys the order is irrelevant). -/
def lookupOpt {α : Type} : List (String × α) → String → Option α
  | [], _ => none
  | (k, v) :: t, q => if k = q then some v else lookupOpt t q

/-- `nc[k]` on a Go map: the stored value, or the zero `interface{}`
value (`nil`, modelled as `Value.null`) when the key is absent. -/
def lookupV (nc : List (String × Value)) (k : String) : Value :=
  (lookupOpt nc k).getD .null

theorem sizeOf_lookupV_le (nc : List (String × Value)) (k : String) :
    sizeOf (lookupV nc k) ≤ sizeOf nc := by
  induction nc with
  | nil => simp [lookupV, lookupOpt]
  | cons kv t ih =>
    obtain ⟨k', v⟩ := kv
    by_cases h : k' = k
    · simp only [lookupV, lookupOpt, if_pos h, Option.getD_some]
      first | (simp; omega) | simp | omega
    · simp only [lookupV, lookupOpt, if_neg h]
      calc sizeOf (lookupV t k) ≤ sizeOf t := ih
        _ ≤ sizeOf ((k', v) :: t) := by first | (simp; omega) | simp | omega

/-- The scalar branch of `read`: `fun(path, TokenValue, curr)`. -/
def readLeaf (f : ReadFun) (v : Value) (path : List Seg) :
    List Event × Option GoError :=
  match f path (.value v) with
  | some e => ([(path, .value v)], some e)
  | none => ([(path, .value v)], none)

mutual

/-- `read(curr, fun, path)` from `node.go`, additionally recording the
trace of callback invocations (the emitted tokens).  The first component
is the list of `(path, token)` pairs passed to `fun`, in order; the
second is the Go error `read` returns (`none` = `nil`). -/
def read (f : ReadFun) : Value → List Seg → List Event × Option GoError
  | .node nc, path =>
    -- err := fun(path, stream.TokenNode, nil); if err != nil { return err }
    match f path .node with
    | some e => ([(path, .node)], some e)
    | none =>
      -- keys collected from the map and sorted (sort.Strings)
      match readKeys f nc (List.insertionSort (· ≤ ·) (nc.map Prod.fst)) path with
      | (evs, some e) => ((path, Token.node) :: evs, some e)
      | (evs, none) =>
        -- err = fun(path, stream.TokenEndNode, nil)
        match f path .endNode with
        | some e => ((path, Token.node) :: evs ++ [(path, Token.endNode)], some e)
        | none => ((path, Token.node) :: evs ++ [(path, Token.endNode)], none)
  | .arr sc, path =>
    -- err := fun(path, stream.TokenArray, nil); if err != nil { return err }
    match f path .array with
    | some e => ([(path, .array)], some e)
    | none =>
      match readElems f sc 0 path with
      | (evs, some e) => ((path, Token.array) :: evs, some e)
      | (evs, none) =>
        -- err = fun(path, stream.TokenEndArray, nil)
        match f path .endArray with
        | some e => ((path, Token.array) :: evs ++ [(path, Token.endArray)], some e)
        | none => ((path, Token.array) :: evs ++ [(path, Token.endArray)], none)
  | .str s, path => readLeaf f (.str s) path
  | .int n, path => readLeaf f (.int n) path
  | .bool b, path => readLeaf f (.bool b) path
  | .null, path => readLeaf f .null path
termination_by v path => (sizeOf v, 0)
decreasing_by
  all_goals simp_wf
  all_goals exact Prod.Lex.left _ _ (by first | (simp; omega) | simp | omega)

/-- The `for _, k := range keys` loop of `read`'s map branch. -/
def readKeys (f : ReadFun) (nc : List (String × Value)) :
    List String → List Seg → List Event × Option GoError
  | [], _ => ([], none)
  | k :: ks, path =>
    -- err := fun(path, stream.TokenKey, k)
    match f path (.key k) with
    | some GoError.nodeReadSkip =>
      -- continue
      let r := readKeys f nc ks path
      ((path, Token.key k) :: r.1, r.2)
    | some e => ([(path, Token.key k)], some e)
    | none =>
      -- err = read(nc[k], fun, append(path, k))
      let c := read f (lookupV nc k) (path ++ [Seg.str k])
      match c.2 with
      | some GoError.nodeReadSkip =>
        let r := readKeys f nc ks path
        ((path, Token.key k) :: c.1 ++ r.1, r.2)
      | some e => ((path, Token.key k) :: c.1, some e)
      | none =>
        let r := readKeys f nc ks path
        ((path, Token.key k) :: c.1 ++ r.1, r.2)
termination_by ks path => (sizeOf nc, 1 + ks.length)
decreasing_by
  all_goals simp_wf
  all_goals first
  | exact Prod.Lex.right _ (by omega)
  | (rcases Nat.lt_or_ge (sizeOf (lookupV nc k)) (sizeOf nc) with h | h
     · exact Prod.Lex.left _ _ h
     · have hle := sizeOf_lookupV_le nc k
       have heq : sizeOf (lookupV nc k) = sizeOf nc := le_antisymm hle h
       rw [heq]
       exact Prod.Lex.right _ (by omega))

/-- The `for i, v := range sc` loop of `read`'s slice branch. -/
def readElems (f : ReadFun) :
    List Value → Nat → List Seg → List Event × Option GoError
  | [], _, _ => ([], none)
  | v :: vs, i, path =>
    -- err := fun(path, stream.TokenIndex, i)
    match f path (.index i) with
    | some GoError.nodeReadSkip =>
      -- continue
      let r := readElems f vs (i + 1) path
      ((path, Token.index i) :: r.1, r.2)
    | some e => ([(path, Token.index i)], some e)
    | none =>
      -- err = read(v, fun, append(path, i))
      let c := read f v (path ++ [Seg.idx i])
      match c.2 with
      | some GoError.nodeReadSkip =>
        let r := readElems f vs (i + 1) path
        ((path, Token.index i) :: c.1 ++ r.1, r.2)
      | some e => ((path, Token.index i) :: c.1, some e)
      | none =>
        let r := readElems f vs (i + 1) path
        ((path, Token.index i) :: c.1 ++ r.1, r.2)
termination_by vs i path => (sizeOf vs, 0)
decreasing_by
  all_goals simp_wf
  all_goals exact Prod.Lex.left _ _ (by first | (simp; omega) | simp | omega)

end

/-- `Node.Read` from `node.go`: runs the engine and swallows the two
sentinel errors at the top level. -/
def Node.Read (n : Node) (f : ReadFun) : Option GoError :=
  let err := (read f (.node n) []).2
  if err = some GoError.nodeReadAbort ∨ err = some GoError.nodeReadSkip then
    none
  else
    err

/-- `IsLink(v)` from `node.go`: `v` must be a `Node`, `vn[LinkKey]` must
be a string (`_, ok = vn[LinkKey].(string)`), and `len(vn) == 1`. -/
def IsLink : Value → Bool
  | .node vn =>
    (match lookupOpt vn LinkKey with
     | some (.str _) => true
     | _ => false)
    && vn.length == 1
  | _ => false

/-- `LinkCast(v)` from `node.go`: `(l, true)` with `l` a copy of the
map's entries when `IsLink(v)`, otherwise `(_, false)`.  Copying a Go map
entry-by-entry yields the same finite map, so the copy is the entry list
itself. -/
def LinkCast (v : Value) : Option Link :=
  if IsLink v then
    match v with
    | .node vn => some vn
    | _ => none
  else
    none

/-- `Link.LinkStr` from `node.go`: `s, _ := l[LinkKey].(string)` — the
string under the marker key, or the zero string when the key is absent or
its value is not a string. -/
def Link.LinkStr (l : Link) : String :=
  match lookupOpt l LinkKey with
  | some (.str s) => s
  | _ => ""

/-- The decoded form of a content-identifier, kept opaque: the spec
treats the identifier as "an opaque textual identifier", so the decoded
multihash is represented by the text it was decoded from. -/
structure Multihash where
  b58 : String
  deriving DecidableEq

/-- The base-58 (Bitcoin) alphabet used by the content-identifier
encoding. -/
def b58Alphabet : List Char :=
  "123456789ABCDEFGHJKLMNPQRSTUVWXYZabcdefghijkmnopqrstuvwxyz".toList

/-- A string is a well-formed base-58 encoding when every character is a
digit of the base-58 alphabet. -/
def validB58 (s : String) : Bool :=
  s.toList.all fun c => b58Alphabet.contains c

/-- Modelled from the spec: `mh.FromB58String` is an external
collaborator (the go-multihash library), not part of `src/`.  Per the
spec's external-interface contract it decodes the opaque base-58 text of
a content-identifier and "malformed input must surface as a DecodeError
distinct from identifier absent". -/
def fromB58String (s : String) : Except GoError Multihash :=
  if validB58 s then
    .ok ⟨s⟩
  else
    .error (GoError.msg "invalid base58 digit")

/-- `Link.Hash` from `node.go`: `errors.New("no hash in link")` when the
link string is empty, otherwise `mh.FromB58String(s)`. -/
def Link.Hash (l : Link) : Except GoError Multihash :=
  let s := l.LinkStr
  if s = "" then
    .error (GoError.msg "no hash in link")
  else
    fromB58String s

mutual

/-- `reflect.DeepEqual` on the values the model can hold: maps compare as
finite maps (same size, and every entry of the left map is present in the
right map with a deeply-equal value — with unique keys this is
order-independent map equality), slices compare element-wise, scalars
compare by value, and values of different dynamic types are unequal. -/
def valueEq : Value → Value → Bool
  | .node a, .node b => a.length == b.length && entriesSub a b
  | .arr a, .arr b => listValueEq a b
  | .str a, .str b => a == b
  | .int a, .int b => a == b
  | .bool a, .bool b => a == b
  | .null, .null => true
  | _, _ => false

/-- Every entry of the first map occurs (deeply equal) in the second. -/
def entriesSub : List (String × Value) → List (String × Value) → Bool
  | [], _ => true
  | (k, v) :: t, b =>
    (match lookupOpt b k with
     | some v' => valueEq v v'
     | none => false)
    && entriesSub t b

/-- Element-wise deep equality of slices. -/
def listValueEq : List Value → List Value → Bool
  | [], [] => true
  | v :: vs, w :: ws => valueEq v w && listValueEq vs ws
  | _, _ => false

end

/-- `Link.Equal` from `node.go`: `reflect.DeepEqual(l, l2)` on the two
maps. -/
def Link.Equal (l : Link) (l2 : Link) : Bool :=
  valueEq (.node l) (.node l2)

mutual

/-- The keys of every map reachable inside the value are pairwise
distinct — true of every value a Go program can build, since a Go map
holds each key at most once.  Association lists with a repeated key do
not represent Go values. -/
def wfV : Value → Bool
  | .node nc => nodupKeys nc && wfEntries nc
  | .arr vs => wfList vs
  | .str _ => true
  | .int _ => true
  | .bool _ => true
  | .null => true

/-- Key uniqueness of one association list. -/
def nodupKeys : List (String × Value) → Bool
  | [] => true
  | (k, _) :: t => !((t.map Prod.fst).contains k) && nodupKeys t

/-- `wfV` of every value of the entry list. -/
def wfEntries : List (String × Value) → Bool
  | [] => true
  | (_, v) :: t => wfV v && wfEntries t

/-- `wfV` of every element of the list. -/
def wfList : List Value → Bool
  | [] => true
  | v :: t => wfV v && wfList t

end

/-- Path concatenation used by the link extractor: the root's path is
empty, a child's path joins the parent's path and the raw key with the
separator. -/
def joinPath (p k : String) : String :=
  if p = "" then k else p ++ "/" ++ k

mutual

/-- Modelled from the spec: the visit part of `Walk` applied to one
value.  A `Node`-typed value is visited (paired with its path) and its
map entries are descended into; any other value contributes no visit. -/
def walkVisitsV : Value → String → List (String × Node)
  | .node vn, p => (p, vn) :: walkEntriesV vn p
  | .arr _, _ => []
  | .str _, _ => []
  | .int _, _ => []
  | .bool _, _ => []
  | .null, _ => []

/-- The descent part of the walk: each entry's value is visited with the
joined path, in entry order (the spec leaves sibling order
unconstrained). -/
def walkEntriesV : List (String × Value) → String → List (String × Node)
  | [], _ => []
  | (k, v) :: t, p => walkVisitsV v (joinPath p k) ++ walkEntriesV t p

end

/-- Modelled from the spec: `Walk` lives in this repository but outside
`src/` (only its caller `Links` is in `src/memory/node.go`).  Per the
spec it performs a full depth-first traversal over every Node reachable
from the root through map entries, visiting the root first, with each
visited node paired with the slash-joined sequence of raw keys from the
root (the root's path is empty).  `Links`' callback never returns an
error, so the early-stop branch of `Walk` is never taken and the plain
visit list suffices. -/
def walkVisits (n : Node) (p : String) : List (String × Node) :=
  walkVisitsV (.node n) p

/-- Assignment `m[path] = l` on the Go result map: replace the entry when
the path is present, append it otherwise. -/
def insertGo : List (String × Link) → String → Link → List (String × Link)
  | [], p, l => [(p, l)]
  | (q, m) :: t, p, l =>
    if q = p then (q, l) :: t else (q, m) :: insertGo t p l

/-- `Links(n)` from `node.go`: walk the document and record
`m[path] = l` for every visited value with `LinkCast(curr) = (l, ok)`,
`ok` true. -/
def Links (n : Node) : List (String × Link) :=
  (walkVisits n "").foldl
    (fun m pn =>
      match LinkCast (.node pn.2) with
      | some l => insertGo m pn.1 l
      | none => m)
    []

/-! ## Trace lemmas for the stream reader -/

/-- Every event of a traversal started at path `p` carries a path at
least as long as `p`; events of a child traversal (started at
`p ++ [seg]`) are therefore never tagged with `p` itself. -/
theorem trace_path_len (f : ReadFun) :
    (∀ (v : Value) (p : List Seg), ∀ ev ∈ (read f v p).1,
      p.length ≤ ev.1.length) ∧
    (∀ (vs : List Value) (i : Nat) (p : List Seg), ∀ ev ∈ (readElems f vs i p).1,
      p.length ≤ ev.1.length) ∧
    (∀ (nc : List (String × Value)) (ks : List String) (p : List Seg),
      ∀ ev ∈ (readKeys f nc ks p).1, p.length ≤ ev.1.length) := by
  refine read.mutual_induct f
    (fun v p => ∀ ev ∈ (read f v p).1, p.length ≤ ev.1.length)
    (fun vs i p => ∀ ev ∈ (readElems f vs i p).1, p.length ≤ ev.1.length)
    (fun nc ks p => ∀ ev ∈ (readKeys f nc ks p).1, p.length ≤ ev.1.length)
    ?_ ?_ ?_ ?_ ?_ ?_ ?_ ?_ ?_ ?_ ?_ ?_ ?_ ?_ ?_ ?_ ?_ ?_ ?_ ?_ ?_ ?_ ?_ ?_
  all_goals intros
  all_goals simp_all [read, readKeys, readElems, readLeaf]
  all_goals try omega
  all_goals intro a b h
  all_goals try split at h
  all_goals try simp only [List.mem_cons, List.mem_append, List.mem_singleton,
    Prod.mk.injEq] at h
  all_goals try casesm* _ ∨ _, _ ∧ _
  all_goals try subst_vars
  all_goals try solve_by_elim [Nat.le_of_succ_le, le_refl]
  all_goals simp_all +zetaDelta

/-- The keys announced by `TokenKey` events tagged with exactly path `p`
in a trace, in emission order. -/
def keysAt (p : List Seg) (evs : List Event) : List String :=
  evs.filterMap fun ev =>
    match ev with
    | (q, .key k) => if q = p then some k else none
    | _ => none

theorem keysAt_append (p : List Seg) (a b : List Event) :
    keysAt p (a ++ b) = keysAt p a ++ keysAt p b :=
  List.filterMap_append a b _

theorem keysAt_cons_key_self (p : List Seg) (k : String) (evs : List Event) :
    keysAt p ((p, Token.key k) :: evs) = k :: keysAt p evs := by
  simp [keysAt, List.filterMap_cons]

theorem keysAt_cons_node (p : List Seg) (evs : List Event) :
    keysAt p ((p, Token.node) :: evs) = keysAt p evs := by
  simp [keysAt, List.filterMap_cons]

theorem keysAt_cons_endNode (p : List Seg) (evs : List Event) :
    keysAt p ((p, Token.endNode) :: evs) = keysAt p evs := by
  simp [keysAt, List.filterMap_cons]

theorem keysAt_nil_of_ne {p : List Seg} {evs : List Event}
    (h : ∀ ev ∈ evs, ev.1 ≠ p) : keysAt p evs = [] := by
  induction evs with
  | nil => rfl
  | cons ev t ih =>
    obtain ⟨q, tok⟩ := ev
    have hq : q ≠ p := h (q, tok) (List.mem_cons_self _ _)
    have ht := ih fun e he => h e (List.mem_cons_of_mem _ he)
    cases tok <;> simp [keysAt, List.filterMap_cons, hq] <;>
      simpa [keysAt] using ht

/-- No event of a child traversal (started at `p ++ [seg]`) is tagged
with `p` itself. -/
theorem child_event_ne {f : ReadFun} {v : Value} {p : List Seg} {s : Seg} :
    ∀ ev ∈ (read f v (p ++ [s])).1, ev.1 ≠ p := by
  intro ev hev hne
  have := (trace_path_len f).1 v (p ++ [s]) ev hev
  rw [hne] at this
  simp at this

/-- The key-token trace of the key loop at path `p` is an initial
segment of the processed key list. -/
theorem keysAt_readKeys (f : ReadFun) (nc : List (String × Value))
    (p : List Seg) : ∀ ks : List String,
    ∃ m, keysAt p (readKeys f nc ks p).1 = ks.take m := by
  intro ks
  induction ks with
  | nil => exact ⟨0, by simp [readKeys, keysAt]⟩
  | cons k ks ih =>
    obtain ⟨m, hm⟩ := ih
    have hc0 : keysAt p (read f (lookupV nc k) (p ++ [Seg.str k])).1 = [] :=
      keysAt_nil_of_ne fun ev hev => child_event_ne ev hev
    rcases hf : f p (.key k) with _ | e
    · rcases hr : (read f (lookupV nc k) (p ++ [Seg.str k])).2 with _ | e'
      · refine ⟨m + 1, ?_⟩
        simp only [readKeys, hf, hr]
        rw [keysAt_append, keysAt_cons_key_self, hc0, hm]
        simp [List.take_succ_cons]
      · cases e'
        · refine ⟨m + 1, ?_⟩
          simp only [readKeys, hf, hr]
          rw [keysAt_append, keysAt_cons_key_self, hc0, hm]
          simp [List.take_succ_cons]
        · refine ⟨1, ?_⟩
          simp only [readKeys, hf, hr]
          rw [keysAt_cons_key_self, hc0]
          simp
        · refine ⟨1, ?_⟩
          simp only [readKeys, hf, hr]
          rw [keysAt_cons_key_self, hc0]
          simp
    · cases e
      · refine ⟨m + 1, ?_⟩
        simp only [readKeys, hf]
        rw [keysAt_cons_key_self, hm]
        simp [List.take_succ_cons]
      · refine ⟨1, ?_⟩
        simp only [readKeys, hf]
        rw [keysAt_cons_key_self]
        simp [keysAt]
      · refine ⟨1, ?_⟩
        simp only [readKeys, hf]
        rw [keysAt_cons_key_self]
        simp [keysAt]

/-- The keys a map traversal announces at its own path form an initial
segment of the byte-wise sorted key list of the map. -/
theorem keysAt_read_node (f : ReadFun) (nc : List (String × Value))
    (p : List Seg) :
    ∃ m, keysAt p (read f (.node nc) p).1 =
      (List.insertionSort (· ≤ ·) (nc.map Prod.fst)).take m := by
  rcases hf : f p .node with _ | e
  · rcases hrk : readKeys f nc (List.insertionSort (· ≤ ·) (nc.map Prod.fst)) p
      with ⟨evs, r⟩
    obtain ⟨m, hm⟩ := keysAt_readKeys f nc p
      (List.insertionSort (· ≤ ·) (nc.map Prod.fst))
    rw [hrk] at hm
    refine ⟨m, ?_⟩
    cases r with
    | none =>
      rcases hend : f p .endNode with _ | e2 <;>
        (simp only [read, hf, hrk, hend]
         rw [keysAt_append, keysAt_cons_node, hm]
         simp [keysAt])
    | some e =>
      simp only [read, hf, hrk]
      rw [keysAt_cons_node, hm]
  · exact ⟨0, by simp [read, hf, keysAt]⟩

theorem mem_of_lookupOpt {α : Type} {l : List (String × α)} {k : String}
    {v : α} (h : lookupOpt l k = some v) : (k, v) ∈ l := by
  induction l with
  | nil => cases h
  | cons kv t ih =>
    obtain ⟨k0, v0⟩ := kv
    simp only [lookupOpt] at h
    by_cases hk : k0 = k
    · rw [if_pos hk] at h
      cases h
      subst hk
      exact List.mem_cons_self _ _
    · rw [if_neg hk] at h
      exact List.mem_cons_of_mem _ (ih h)

theorem lookupOpt_of_mem {α : Type} {l : List (String × α)}
    (hnd : (l.map Prod.fst).Nodup) {k : String} {v : α}
    (h : (k, v) ∈ l) : lookupOpt l k = some v := by
  induction l with
  | nil => cases h
  | cons kv t ih =>
    obtain ⟨k0, v0⟩ := kv
    simp only [List.map_cons, List.nodup_cons] at hnd
    rcases List.mem_cons.mp h with heq | hmem
    · cases heq
      simp [lookupOpt]
    · have hk : k0 ≠ k := by
        intro hk0
        subst hk0
        exact hnd.1 (List.mem_map.mpr ⟨(k0, v), hmem, rfl⟩)
      simp only [lookupOpt, if_neg hk]
      exact ih hnd.2 hmem

theorem lookupOpt_none_iff {α : Type} {l : List (String × α)}
    {k : String} : lookupOpt l k = none ↔ k ∉ l.map Prod.fst := by
  induction l with
  | nil => simp [lookupOpt]
  | cons kv t ih =>
    obtain ⟨k0, v0⟩ := kv
    by_cases hk : k0 = k
    · subst hk
      simp [lookupOpt]
    · rw [show lookupOpt ((k0, v0) :: t) k = lookupOpt t k from by
        simp only [lookupOpt, if_neg hk], ih]
      simp only [List.map_cons, List.mem_cons]
      constructor
      · intro h hor
        rcases hor with h1 | h2
        · exact hk h1.symm
        · exact h h2
      · intro h hmem
        exact h (Or.inr hmem)

/-- With unique keys, lookup is invariant under permutation of the
entry list. -/
theorem lookupOpt_perm {α : Type} {l l' : List (String × α)}
    (hperm : l.Perm l') (hnd : (l.map Prod.fst).Nodup) (k : String) :
    lookupOpt l k = lookupOpt l' k := by
  rcases h : lookupOpt l k with _ | v
  · rw [lookupOpt_none_iff] at h
    have : k ∉ l'.map Prod.fst := fun hm =>
      h ((hperm.map Prod.fst).mem_iff.mpr hm)
    exact (lookupOpt_none_iff.mpr this).symm
  · have hnd' : (l'.map Prod.fst).Nodup :=
      ((hperm.map Prod.fst).nodup_iff).mp hnd
    exact (lookupOpt_of_mem hnd' (hperm.mem_iff.mp (mem_of_lookupOpt h))).symm

/-- The key loop of `read` depends on the entry list only through
lookups. -/
theorem readKeys_congr (f : ReadFun) {nc nc' : List (String × Value)}
    (h : ∀ k, lookupV nc k = lookupV nc' k) :
    ∀ (ks : List String) (p : List Seg),
      readKeys f nc ks p = readKeys f nc' ks p := by
  intro ks
  induction ks with
  | nil => intro p; simp [readKeys]
  | cons k ks ih =>
    intro p
    simp only [readKeys, h k, ih]

/-- With unique keys, a map traversal is invariant under permutation of
the underlying entry list: the sorted key sequence and every lookup
agree. -/
theorem read_node_congr (f : ReadFun) {nc nc' : List (String × Value)}
    (p : List Seg) (hperm : nc.Perm nc')
    (hnd : (nc.map Prod.fst).Nodup) :
    read f (.node nc) p = read f (.node nc') p := by
  have hkeys : List.insertionSort (· ≤ ·) (nc.map Prod.fst) =
      List.insertionSort (· ≤ ·) (nc'.map Prod.fst) :=
    List.eq_of_perm_of_sorted
      ((List.perm_insertionSort _ _).trans
        ((hperm.map Prod.fst).trans (List.perm_insertionSort _ _).symm))
      (List.sorted_insertionSort _ _) (List.sorted_insertionSort _ _)
  have hlv : ∀ k, lookupV nc k = lookupV nc' k := fun k => by
    simp [lookupV, lookupOpt_perm hperm hnd k]
  simp only [read, hkeys, readKeys_congr f hlv]

/-- When a traversal finishes with any error result other than the
SkipSubtree sentinel, the trace ends exactly at the callback invocation
that returned that error: nothing is emitted after it, and the error is
the callback's value verbatim. -/
theorem trace_last_event (f : ReadFun) :
    (∀ (v : Value) (p : List Seg), ∀ e : GoError, e ≠ GoError.nodeReadSkip →
      (read f v p).2 = some e →
      ∃ pre ev, (read f v p).1 = pre ++ [ev] ∧ f ev.1 ev.2 = some e) ∧
    (∀ (vs : List Value) (i : Nat) (p : List Seg), ∀ e : GoError,
      e ≠ GoError.nodeReadSkip → (readElems f vs i p).2 = some e →
      ∃ pre ev, (readElems f vs i p).1 = pre ++ [ev] ∧ f ev.1 ev.2 = some e) ∧
    (∀ (nc : List (String × Value)) (ks : List String) (p : List Seg),
      ∀ e : GoError, e ≠ GoError.nodeReadSkip →
      (readKeys f nc ks p).2 = some e →
      ∃ pre ev, (readKeys f nc ks p).1 = pre ++ [ev] ∧ f ev.1 ev.2 = some e) := by
  refine read.mutual_induct f
    (fun v p => ∀ e : GoError, e ≠ GoError.nodeReadSkip →
      (read f v p).2 = some e →
      ∃ pre ev, (read f v p).1 = pre ++ [ev] ∧ f ev.1 ev.2 = some e)
    (fun vs i p => ∀ e : GoError, e ≠ GoError.nodeReadSkip →
      (readElems f vs i p).2 = some e →
      ∃ pre ev, (readElems f vs i p).1 = pre ++ [ev] ∧ f ev.1 ev.2 = some e)
    (fun nc ks p => ∀ e : GoError, e ≠ GoError.nodeReadSkip →
      (readKeys f nc ks p).2 = some e →
      ∃ pre ev, (readKeys f nc ks p).1 = pre ++ [ev] ∧ f ev.1 ev.2 = some e)
    ?_ ?_ ?_ ?_ ?_ ?_ ?_ ?_ ?_ ?_ ?_ ?_ ?_ ?_ ?_ ?_ ?_ ?_ ?_ ?_ ?_ ?_ ?_ ?_
  -- map: start token returns an error
  · intro nc path e0 h0 e he hres
    simp only [read, h0] at hres ⊢
    cases hres
    exact ⟨[], (path, .node), by simp, h0⟩
  -- map: key loop returns an error
  · intro nc path h0 evs e0 hrk ih e he hres
    simp only [read, h0, hrk] at hres ⊢
    cases hres
    obtain ⟨pre, ev, hpre, hev⟩ := ih e0 he (by rw [hrk])
    rw [hrk] at hpre
    have hpre2 : evs = pre ++ [ev] := hpre
    exact ⟨(path, .node) :: pre, ev, by rw [hpre2]; simp, hev⟩
  -- map: end token returns an error
  · intro nc path h0 evs hrk e0 hend ih e he hres
    simp only [read, h0, hrk, hend] at hres ⊢
    cases hres
    exact ⟨(path, Token.node) :: evs, (path, .endNode), by simp, hend⟩
  -- map: full success
  · intro nc path h0 evs hrk hend ih e he hres
    simp only [read, h0, hrk, hend] at hres
    exact Option.noConfusion hres
  -- array: start token returns an error
  · intro sc path e0 h0 e he hres
    simp only [read, h0] at hres ⊢
    cases hres
    exact ⟨[], (path, .array), by simp, h0⟩
  -- array: element loop returns an error
  · intro sc path h0 evs e0 hre ih e he hres
    simp only [read, h0, hre] at hres ⊢
    cases hres
    obtain ⟨pre, ev, hpre, hev⟩ := ih e0 he (by rw [hre])
    rw [hre] at hpre
    have hpre2 : evs = pre ++ [ev] := hpre
    exact ⟨(path, .array) :: pre, ev, by rw [hpre2]; simp, hev⟩
  -- array: end token returns an error
  · intro sc path h0 evs hre e0 hend ih e he hres
    simp only [read, h0, hre, hend] at hres ⊢
    cases hres
    exact ⟨(path, Token.array) :: evs, (path, .endArray), by simp, hend⟩
  -- array: full success
  · intro sc path h0 evs hre hend ih e he hres
    simp only [read, h0, hre, hend] at hres
    exact Option.noConfusion hres
  -- scalar: string
  · intro s path e he hres
    rcases hf : f path (.value (.str s)) with _ | e0 <;>
      simp only [read, readLeaf, hf] at hres ⊢
    · exact Option.noConfusion hres
    · cases hres
      exact ⟨[], (path, .value (.str s)), by simp, hf⟩
  -- scalar: int
  · intro n path e he hres
    rcases hf : f path (.value (.int n)) with _ | e0 <;>
      simp only [read, readLeaf, hf] at hres ⊢
    · exact Option.noConfusion hres
    · cases hres
      exact ⟨[], (path, .value (.int n)), by simp, hf⟩
  -- scalar: bool
  · intro b path e he hres
    rcases hf : f path (.value (.bool b)) with _ | e0 <;>
      simp only [read, readLeaf, hf] at hres ⊢
    · exact Option.noConfusion hres
    · cases hres
      exact ⟨[], (path, .value (.bool b)), by simp, hf⟩
  -- scalar: null
  · intro path e he hres
    rcases hf : f path (.value .null) with _ | e0 <;>
      simp only [read, readLeaf, hf] at hres ⊢
    · exact Option.noConfusion hres
    · cases hres
      exact ⟨[], (path, .value .null), by simp, hf⟩
  -- element loop: done
  · intro i path e he hres
    simp only [readElems] at hres
    exact Option.noConfusion hres
  -- element loop: skip on the index token
  · intro v vs i path h0 ih e he hres
    simp only [readElems, h0] at hres ⊢
    obtain ⟨pre, ev, hpre, hev⟩ := ih e he hres
    exact ⟨(path, Token.index i) :: pre, ev, by rw [hpre]; simp, hev⟩
  -- element loop: a non-skip error on the index token
  · intro v vs i path e0 hne0 h0 e he hres
    cases e0 with
    | nodeReadSkip => exact absurd rfl hne0
    | nodeReadAbort =>
      simp only [readElems, h0] at hres ⊢
      cases hres
      exact ⟨[], (path, .index i), by simp, h0⟩
    | msg s =>
      simp only [readElems, h0] at hres ⊢
      cases hres
      exact ⟨[], (path, .index i), by simp, h0⟩
  -- element loop: child skipped
  · intro v vs i path h0 c hc ih1 ih2 e he hres
    have hc2 : (read f v (path ++ [Seg.idx i])).2 = some GoError.nodeReadSkip := hc
    simp only [readElems, h0, hc2] at hres ⊢
    obtain ⟨pre, ev, hpre, hev⟩ := ih2 e he hres
    exact ⟨(path, Token.index i) :: (read f v (path ++ [Seg.idx i])).1 ++ pre,
      ev, by rw [hpre]; simp, hev⟩
  -- element loop: child returned a non-skip error
  · intro v vs i path h0 c e0 hne0 hc ih1 e he hres
    have hc2 : (read f v (path ++ [Seg.idx i])).2 = some e0 := hc
    cases e0 with
    | nodeReadSkip => exact absurd rfl hne0
    | nodeReadAbort =>
      simp only [readElems, h0, hc2] at hres ⊢
      cases hres
      obtain ⟨pre, ev, hpre, hev⟩ := ih1 _ (by simp) hc2
      exact ⟨(path, Token.index i) :: pre, ev, by rw [hpre]; simp, hev⟩
    | msg s =>
      simp only [readElems, h0, hc2] at hres ⊢
      cases hres
      obtain ⟨pre, ev, hpre, hev⟩ := ih1 _ (by simp) hc2
      exact ⟨(path, Token.index i) :: pre, ev, by rw [hpre]; simp, hev⟩
  -- element loop: child succeeded
  · intro v vs i path h0 c hc ih1 ih2 e he hres
    have hc2 : (read f v (path ++ [Seg.idx i])).2 = none := hc
    simp only [readElems, h0, hc2] at hres ⊢
    obtain ⟨pre, ev, hpre, hev⟩ := ih2 e he hres
    exact ⟨(path, Token.index i) :: (read f v (path ++ [Seg.idx i])).1 ++ pre,
      ev, by rw [hpre]; simp, hev⟩
  -- key loop: done
  · intro nc path e he hres
    simp only [readKeys] at hres
    exact Option.noConfusion hres
  -- key loop: skip on the key token
  · intro nc k ks path h0 ih e he hres
    simp only [readKeys, h0] at hres ⊢
    obtain ⟨pre, ev, hpre, hev⟩ := ih e he hres
    exact ⟨(path, Token.key k) :: pre, ev, by rw [hpre]; simp, hev⟩
  -- key loop: a non-skip error on the key token
  · intro nc k ks path e0 hne0 h0 e he hres
    cases e0 with
    | nodeReadSkip => exact absurd rfl hne0
    | nodeReadAbort =>
      simp only [readKeys, h0] at hres ⊢
      cases hres
      exact ⟨[], (path, .key k), by simp, h0⟩
    | msg s =>
      simp only [readKeys, h0] at hres ⊢
      cases hres
      exact ⟨[], (path, .key k), by simp, h0⟩
  -- key loop: child skipped
  · intro nc k ks path h0 c hc ih1 ih2 e he hres
    have hc2 : (read f (lookupV nc k) (path ++ [Seg.str k])).2 =
        some GoError.nodeReadSkip := hc
    simp only [readKeys, h0, hc2] at hres ⊢
    obtain ⟨pre, ev, hpre, hev⟩ := ih2 e he hres
    exact ⟨(path, Token.key k) :: (read f (lookupV nc k) (path ++ [Seg.str k])).1
        ++ pre, ev, by rw [hpre]; simp, hev⟩
  -- key loop: child returned a non-skip error
  · intro nc k ks path h0 c e0 hne0 hc ih1 e he hres
    have hc2 : (read f (lookupV nc k) (path ++ [Seg.str k])).2 = some e0 := hc
    cases e0 with
    | nodeReadSkip => exact absurd rfl hne0
    | nodeReadAbort =>
      simp only [readKeys, h0, hc2] at hres ⊢
      cases hres
      obtain ⟨pre, ev, hpre, hev⟩ := ih1 _ (by simp) hc2
      exact ⟨(path, Token.key k) :: pre, ev, by rw [hpre]; simp, hev⟩
    | msg s =>
      simp only [readKeys, h0, hc2] at hres ⊢
      cases hres
      obtain ⟨pre, ev, hpre, hev⟩ := ih1 _ (by simp) hc2
      exact ⟨(path, Token.key k) :: pre, ev, by rw [hpre]; simp, hev⟩
  -- key loop: child succeeded
  · intro nc k ks path h0 c hc ih1 ih2 e he hres
    have hc2 : (read f (lookupV nc k) (path ++ [Seg.str k])).2 = none := hc
    simp only [readKeys, h0, hc2] at hres ⊢
    obtain ⟨pre, ev, hpre, hev⟩ := ih2 e he hres
    exact ⟨(path, Token.key k) :: (read f (lookupV nc k) (path ++ [Seg.str k])).1
        ++ pre, ev, by rw [hpre]; simp, hev⟩

/-! ## Deep-equality lemmas -/

theorem value_sizeOf_pos (v : Value) : 0 < sizeOf v := by
  cases v <;> simp <;> omega

theorem wfV_node_iff {nc : List (String × Value)} :
    wfV (.node nc) = true ↔ nodupKeys nc = true ∧ wfEntries nc = true := by
  simp [wfV, Bool.and_eq_true]

theorem wfEntries_mem {nc : List (String × Value)}
    (h : wfEntries nc = true) : ∀ kv ∈ nc, wfV kv.2 = true := by
  induction nc with
  | nil => intro kv hkv; cases hkv
  | cons kv0 t ih =>
    obtain ⟨k0, v0⟩ := kv0
    simp only [wfEntries, Bool.and_eq_true] at h
    intro kv hkv
    rcases List.mem_cons.mp hkv with heq | hmem
    · cases heq; exact h.1
    · exact ih h.2 kv hmem

theorem wfList_mem {vs : List Value} (h : wfList vs = true) :
    ∀ v ∈ vs, wfV v = true := by
  induction vs with
  | nil => intro v hv; cases hv
  | cons v0 t ih =>
    simp only [wfList, Bool.and_eq_true] at h
    intro v hv
    rcases List.mem_cons.mp hv with heq | hmem
    · cases heq; exact h.1
    · exact ih h.2 v hmem

theorem nodupKeys_nodup {nc : List (String × Value)} :
    nodupKeys nc = true ↔ (nc.map Prod.fst).Nodup := by
  induction nc with
  | nil => simp [nodupKeys]
  | cons kv t ih =>
    obtain ⟨k0, v0⟩ := kv
    simp [nodupKeys, Bool.and_eq_true, ih, List.nodup_cons]
    try tauto

theorem entriesSub_iff {a b : List (String × Value)} :
    entriesSub a b = true ↔
      ∀ kv ∈ a, ∃ w, lookupOpt b kv.1 = some w ∧ valueEq kv.2 w = true := by
  induction a with
  | nil => simp [entriesSub]
  | cons kv0 t ih =>
    obtain ⟨k0, v0⟩ := kv0
    simp only [entriesSub, Bool.and_eq_true, ih, List.mem_cons]
    constructor
    · rintro ⟨h1, h2⟩ kv hkv
      rcases hkv with heq | hmem
      · cases heq
        rcases hb : lookupOpt b k0 with _ | w
        · rw [hb] at h1; cases h1
        · rw [hb] at h1
          exact ⟨w, rfl, h1⟩
      · exact h2 kv hmem
    · intro h
      constructor
      · obtain ⟨w, hw, hvw⟩ := h (k0, v0) (Or.inl rfl)
        rw [hw]
        exact hvw
      · exact fun kv hkv => h kv (Or.inr hkv)

theorem listValueEq_refl_of {vs : List Value}
    (h : ∀ v ∈ vs, valueEq v v = true) : listValueEq vs vs = true := by
  induction vs with
  | nil => rfl
  | cons v t ih =>
    simp only [listValueEq, Bool.and_eq_true]
    exact ⟨h v (List.mem_cons_self _ _),
      ih fun w hw => h w (List.mem_cons_of_mem _ hw)⟩

theorem listValueEq_symm_of :
    ∀ (vs ws : List Value),
      (∀ v ∈ vs, ∀ w ∈ ws, valueEq v w = true → valueEq w v = true) →
      listValueEq vs ws = true → listValueEq ws vs = true := by
  intro vs
  induction vs with
  | nil =>
    intro ws _ h
    cases ws with
    | nil => exact h
    | cons w t => simp [listValueEq] at h
  | cons v t ih =>
    intro ws hsymm h
    cases ws with
    | nil => simp [listValueEq] at h
    | cons w u =>
      simp only [listValueEq, Bool.and_eq_true] at h ⊢
      refine ⟨hsymm v (List.mem_cons_self _ _) w (List.mem_cons_self _ _) h.1,
        ih u ?_ h.2⟩
      intro v' hv' w' hw'
      exact hsymm v' (List.mem_cons_of_mem _ hv') w' (List.mem_cons_of_mem _ hw')

/-- Reflexivity of `reflect.DeepEqual` on well-formed values (every
reachable map has unique keys). -/
theorem valueEq_refl_aux :
    ∀ (N : Nat) (v : Value), sizeOf v ≤ N → wfV v = true →
      valueEq v v = true := by
  intro N
  induction N with
  | zero =>
    intro v hv
    exact absurd hv (by have := value_sizeOf_pos v; omega)
  | succ N ih =>
    intro v hv hwf
    match v with
    | .node nc =>
      have hsz : sizeOf nc ≤ N := by
        have : sizeOf (Value.node nc) = 1 + sizeOf nc := by simp
        omega
      obtain ⟨hnd, hent⟩ := wfV_node_iff.mp hwf
      simp only [valueEq, Bool.and_eq_true, beq_iff_eq]
      refine ⟨by trivial, entriesSub_iff.mpr ?_⟩
      intro kv hkv
      obtain ⟨k0, v0⟩ := kv
      refine ⟨v0, lookupOpt_of_mem (nodupKeys_nodup.mp hnd) hkv, ?_⟩
      have hlt : sizeOf (k0, v0) < sizeOf nc := List.sizeOf_lt_of_mem hkv
      have hsplit : sizeOf (k0, v0) = 1 + sizeOf k0 + sizeOf v0 := by simp
      exact ih v0 (by omega) (wfEntries_mem hent (k0, v0) hkv)
    | .arr vs =>
      have hsz : sizeOf vs ≤ N := by
        have : sizeOf (Value.arr vs) = 1 + sizeOf vs := by simp
        omega
      simp only [valueEq]
      refine listValueEq_refl_of fun w hw => ?_
      have hlt : sizeOf w < sizeOf vs := List.sizeOf_lt_of_mem hw
      exact ih w (by omega) (wfList_mem hwf w hw)
    | .str s => simp [valueEq]
    | .int n => simp [valueEq]
    | .bool b => simp [valueEq]
    | .null => simp [valueEq]

/-- Symmetry of `reflect.DeepEqual` on well-formed values. -/
theorem valueEq_symm_aux :
    ∀ (N : Nat) (a b : Value), sizeOf a + sizeOf b ≤ N →
      wfV a = true → wfV b = true →
      valueEq a b = true → valueEq b a = true := by
  intro N
  induction N with
  | zero =>
    intro a b hab
    exact absurd hab (by have := value_sizeOf_pos a; have := value_sizeOf_pos b; omega)
  | succ N ih =>
    intro a b hsz hwa hwb hab
    match a, b with
    | .node na, .node nb =>
      have hsa : sizeOf (Value.node na) = 1 + sizeOf na := by simp
      have hsb : sizeOf (Value.node nb) = 1 + sizeOf nb := by simp
      obtain ⟨hnda, henta⟩ := wfV_node_iff.mp hwa
      obtain ⟨hndb, hentb⟩ := wfV_node_iff.mp hwb
      have hnda' := nodupKeys_nodup.mp hnda
      have hndb' := nodupKeys_nodup.mp hndb
      simp only [valueEq, Bool.and_eq_true, beq_iff_eq] at hab ⊢
      obtain ⟨hlen, hsub⟩ := hab
      have hsub' := entriesSub_iff.mp hsub
      have hkeysub : na.map Prod.fst ⊆ nb.map Prod.fst := by
        intro x hx
        obtain ⟨kv, hkv, rfl⟩ := List.mem_map.mp hx
        obtain ⟨w, hw, _⟩ := hsub' kv hkv
        exact List.mem_map.mpr ⟨(kv.1, w), mem_of_lookupOpt hw, rfl⟩
      have hperm : (na.map Prod.fst).Perm (nb.map Prod.fst) :=
        (List.subperm_of_subset hnda' hkeysub).perm_of_length_le
          (by simp [hlen])
      refine ⟨hlen.symm, entriesSub_iff.mpr ?_⟩
      rintro ⟨k', v'⟩ hkv'
      have hk'a : k' ∈ na.map Prod.fst :=
        hperm.symm.subset (List.mem_map.mpr ⟨(k', v'), hkv', rfl⟩)
      obtain ⟨kv, hkvmem, hfst⟩ := List.mem_map.mp hk'a
      obtain ⟨k0, v0⟩ := kv
      have hfst2 : k0 = k' := hfst
      subst hfst2
      obtain ⟨w, hw, hvw⟩ := hsub' (k0, v0) hkvmem
      have hwv2 : w = v' := by
        have := lookupOpt_of_mem hndb' hkv'
        rw [hw] at this
        exact (Option.some_inj.mp this)
      subst hwv2
      refine ⟨v0, lookupOpt_of_mem hnda' hkvmem, ?_⟩
      have h1 : sizeOf ((k0, v0) : String × Value) < sizeOf na :=
        List.sizeOf_lt_of_mem hkvmem
      have h2 : sizeOf ((k0, w) : String × Value) < sizeOf nb :=
        List.sizeOf_lt_of_mem hkv'
      have h3 : sizeOf ((k0, v0) : String × Value) = 1 + sizeOf k0 + sizeOf v0 := by
        simp
      have h4 : sizeOf ((k0, w) : String × Value) = 1 + sizeOf k0 + sizeOf w := by
        simp
      exact ih v0 w (by omega)
        (wfEntries_mem henta (k0, v0) hkvmem)
        (wfEntries_mem hentb (k0, w) hkv') hvw
    | .arr va, .arr vb =>
      have hsa : sizeOf (Value.arr va) = 1 + sizeOf va := by simp
      have hsb : sizeOf (Value.arr vb) = 1 + sizeOf vb := by simp
      simp only [valueEq] at hab ⊢
      refine listValueEq_symm_of va vb ?_ hab
      intro v hv w hw
      have h1 : sizeOf v < sizeOf va := List.sizeOf_lt_of_mem hv
      have h2 : sizeOf w < sizeOf vb := List.sizeOf_lt_of_mem hw
      exact ih v w (by omega) (wfList_mem hwa v hv) (wfList_mem hwb w hw)
    | .str s, .str t =>
      simp only [valueEq, beq_iff_eq] at hab ⊢
      exact hab.symm
    | .int m, .int n =>
      simp only [valueEq, beq_iff_eq] at hab ⊢
      exact hab.symm
    | .bool s, .bool t =>
      simp only [valueEq, beq_iff_eq] at hab ⊢
      exact hab.symm
    | .null, .null => rfl
    | .node _, .arr _ => simp [valueEq] at hab
    | .node _, .str _ => simp [valueEq] at hab
    | .node _, .int _ => simp [valueEq] at hab
    | .node _, .bool _ => simp [valueEq] at hab
    | .node _, .null => simp [valueEq] at hab
    | .arr _, .node _ => simp [valueEq] at hab
    | .arr _, .str _ => simp [valueEq] at hab
    | .arr _, .int _ => simp [valueEq] at hab
    | .arr _, .bool _ => simp [valueEq] at hab
    | .arr _, .null => simp [valueEq] at hab
    | .str _, .node _ => simp [valueEq] at hab
    | .str _, .arr _ => simp [valueEq] at hab
    | .str _, .int _ => simp [valueEq] at hab
    | .str _, .bool _ => simp [valueEq] at hab
    | .str _, .null => simp [valueEq] at hab
    | .int _, .node _ => simp [valueEq] at hab
    | .int _, .arr _ => simp [valueEq] at hab
    | .int _, .str _ => simp [valueEq] at hab
    | .int _, .bool _ => simp [valueEq] at hab
    | .int _, .null => simp [valueEq] at hab
    | .bool _, .node _ => simp [valueEq] at hab
    | .bool _, .arr _ => simp [valueEq] at hab
    | .bool _, .str _ => simp [valueEq] at hab
    | .bool _, .int _ => simp [valueEq] at hab
    | .bool _, .null => simp [valueEq] at hab
    | .null, .node _ => simp [valueEq] at hab
    | .null, .arr _ => simp [valueEq] at hab
    | .null, .str _ => simp [valueEq] at hab
    | .null, .int _ => simp [valueEq] at hab
    | .null, .bool _ => simp [valueEq] at hab

/-- Deep equality is reflexive on well-formed values. -/
theorem valueEq_refl (v : Value) (h : wfV v = true) : valueEq v v = true :=
  valueEq_refl_aux (sizeOf v) v le_rfl h

/-- Deep equality is symmetric on well-formed values. -/
theorem valueEq_symm (a b : Value) (ha : wfV a = true) (hb : wfV b = true) :
    valueEq a b = valueEq b a := by
  cases hab : valueEq a b with
  | true =>
    exact (valueEq_symm_aux (sizeOf a + sizeOf b) a b le_rfl ha hb hab).symm
  | false =>
    cases hba : valueEq b a with
    | true =>
      rw [valueEq_symm_aux (sizeOf b + sizeOf a) b a le_rfl hb ha hba] at hab
      cases hab
    | false => rfl

/-! ## Claim theorems -/

/-- Test callback: `SkipSubtree` on every `StartArray` token, continue
otherwise. -/
def cbSkipOnArray : ReadFun := fun _ t =>
  match t with
  | .array => some GoError.nodeReadSkip
  | _ => none

/-- Test callback: `SkipSubtree` on every `StartMap` token, continue
otherwise. -/
def cbSkipOnNode : ReadFun := fun _ t =>
  match t with
  | .node => some GoError.nodeReadSkip
  | _ => none

/-- Test callback: `Abort` on every token. -/
def cbAbortAll : ReadFun := fun _ _ => some GoError.nodeReadAbort

/-- Test callback: `SkipSubtree` on every token. -/
def cbSkipAll : ReadFun := fun _ _ => some GoError.nodeReadSkip

/-- Test callback: a consumer error on every token. -/
def cbBoom : ReadFun := fun _ _ => some (GoError.msg "boom")

/-- `true` iff the token is `TokenEndArray`. -/
def isEndArray : Token → Bool
  | .endArray => true
  | _ => false

/-- C1, counterexample.  On the document `{"a": [1]}` with a callback
that returns SkipSubtree on the `StartArray` token, the emitted trace is
exactly StartMap, Key "a", StartArray, EndMap: the array's Index/Value
tokens are suppressed, but — contrary to the claim — NO matching
EndArray token is emitted either. -/
theorem c1_counterexample :
    read cbSkipOnArray (.node [("a", .arr [.int 1])]) [] =
      ([([], .node), ([], .key "a"), ([Seg.str "a"], .array), ([], .endNode)], none)
    ∧ (read cbSkipOnArray (.node [("a", .arr [.int 1])]) []).1.all
        (fun ev => !(isEndArray ev.2)) = true := by
  constructor
  · simp [read, readKeys, readElems, cbSkipOnArray, lookupV, lookupOpt]
  · simp [read, readKeys, readElems, cbSkipOnArray, lookupV, lookupOpt, isEndArray]

/-- C1, amended.  When a callback returns SkipSubtree on a StartMap or
StartArray token, traversal of that map's or array's children is
suppressed (the trace of that subtree is exactly the start token), the
matching EndMap/EndArray token is NOT emitted, and the SkipSubtree result
is swallowed by the caller so traversal continues with the following
siblings. -/
theorem c1_skip_on_start (f : ReadFun) (nc : Node) (sc : List Value)
    (ks : List String) (k : String) (p : List Seg) :
    (f p .node = some GoError.nodeReadSkip →
      read f (.node nc) p = ([(p, .node)], some GoError.nodeReadSkip)) ∧
    (f p .array = some GoError.nodeReadSkip →
      read f (.arr sc) p = ([(p, .array)], some GoError.nodeReadSkip)) ∧
    (f p (.key k) = none →
      (read f (lookupV nc k) (p ++ [Seg.str k])).2 = some GoError.nodeReadSkip →
      readKeys f nc (k :: ks) p =
        ((p, Token.key k) :: (read f (lookupV nc k) (p ++ [Seg.str k])).1
            ++ (readKeys f nc ks p).1,
         (readKeys f nc ks p).2)) := by
  refine ⟨fun h => ?_, fun h => ?_, fun h1 h2 => ?_⟩
  · simp [read, h]
  · simp [read, h]
  · simp only [readKeys, h1]
    rw [h2]

/-- Witness for C1's amended theorem at concrete inputs. -/
theorem c1_skip_on_start_witness :
    read cbSkipOnNode (.node [("a", .str "x")]) [] =
      ([([], .node)], some GoError.nodeReadSkip) ∧
    read cbSkipOnArray (.arr [.int 1]) [] =
      ([([], .array)], some GoError.nodeReadSkip) ∧
    readKeys cbSkipOnArray [("a", .arr [.int 1])] ["a"] [] =
      (([], Token.key "a") ::
          (read cbSkipOnArray (lookupV [("a", .arr [.int 1])] "a") [Seg.str "a"]).1
          ++ (readKeys cbSkipOnArray [("a", .arr [.int 1])] [] []).1,
       (readKeys cbSkipOnArray [("a", .arr [.int 1])] [] []).2) :=
  ⟨(c1_skip_on_start cbSkipOnNode [("a", .str "x")] [] [] "a" []).1 rfl,
   (c1_skip_on_start cbSkipOnArray [] [.int 1] [] "a" []).2.1 rfl,
   (c1_skip_on_start cbSkipOnArray [("a", .arr [.int 1])] [] [] "a" []).2.2 rfl
     (by simp [read, readElems, cbSkipOnArray, lookupV, lookupOpt])⟩

/-- Test callback: continue on every token. -/
def cbNone : ReadFun := fun _ _ => none

/-- C2: the Key tokens a map traversal emits at its own path appear in
ascending byte-wise string order; the traversal is independent of the
underlying entry order of the map (any permutation with the same unique
keys yields the identical trace and result); and over `{"a":1,"b":2}`
the announced key sequence is exactly `["a", "b"]` — `Key("a")` strictly
before `Key("b")`. -/
theorem c2_key_order (f : ReadFun) (nc nc' : Node) (p : List Seg)
    (hperm : nc.Perm nc') (hnd : (nc.map Prod.fst).Nodup) :
    List.Sorted (· ≤ ·) (keysAt p (read f (.node nc) p).1) ∧
    read f (.node nc) p = read f (.node nc') p ∧
    keysAt [] (read cbNone (.node [("b", .int 2), ("a", .int 1)]) []).1 =
      ["a", "b"] := by
  refine ⟨?_, read_node_congr f p hperm hnd, ?_⟩
  · obtain ⟨m, hm⟩ := keysAt_read_node f nc p
    rw [hm]
    exact List.Pairwise.sublist (List.take_sublist _ _)
      (List.sorted_insertionSort _ _)
  · simp +decide [read, readKeys, readLeaf, cbNone, lookupV, lookupOpt,
      keysAt, List.insertionSort, List.orderedInsert]

/-- Witness for C2: the map `{"a":1,"b":2}` presented in the two
opposite entry orders. -/
theorem c2_key_order_witness :
    List.Sorted (· ≤ ·)
      (keysAt [] (read cbNone (.node [("b", .int 2), ("a", .int 1)]) []).1) ∧
    read cbNone (.node [("b", .int 2), ("a", .int 1)]) [] =
      read cbNone (.node [("a", .int 1), ("b", .int 2)]) [] ∧
    keysAt [] (read cbNone (.node [("b", .int 2), ("a", .int 1)]) []).1 =
      ["a", "b"] :=
  c2_key_order cbNone [("b", .int 2), ("a", .int 1)]
    [("a", .int 1), ("b", .int 2)] []
    (List.Perm.swap (("a", Value.int 1) : String × Value) ("b", Value.int 2) [])
    (by simp)

/-- C3: when the engine's result is the Abort or SkipSubtree sentinel,
`Node.Read` reports ordinary successful completion (a nil error). -/
theorem c3_control_swallowed (f : ReadFun) (n : Node)
    (h : (read f (.node n) []).2 = some GoError.nodeReadAbort ∨
         (read f (.node n) []).2 = some GoError.nodeReadSkip) :
    Node.Read n f = none := by
  simp only [Node.Read]
  rw [if_pos h]

/-- Witness for C3: the very first callback invocation returning Abort
(resp. SkipSubtree) yields a nil error from `Read`. -/
theorem c3_control_swallowed_witness :
    Node.Read [("a", .str "x")] cbAbortAll = none ∧
    Node.Read [("a", .str "x")] cbSkipAll = none :=
  ⟨c3_control_swallowed cbAbortAll [("a", .str "x")]
      (Or.inl (by simp [read, cbAbortAll])),
   c3_control_swallowed cbSkipAll [("a", .str "x")]
      (Or.inr (by simp [read, cbSkipAll]))⟩

/-- C4: a callback value that is neither SkipSubtree nor Abort stops the
traversal immediately — the trace ends exactly at the invocation that
returned it — and propagates verbatim as `Read`'s result. -/
theorem c4_consumer_error (f : ReadFun) (n : Node) (e : GoError)
    (hs : e ≠ GoError.nodeReadSkip) (ha : e ≠ GoError.nodeReadAbort)
    (h : (read f (.node n) []).2 = some e) :
    Node.Read n f = some e ∧
    ∃ pre ev, (read f (.node n) []).1 = pre ++ [ev] ∧ f ev.1 ev.2 = some e := by
  constructor
  · simp [Node.Read, h, hs, ha]
  · exact (trace_last_event f).1 (.node n) [] e hs h

/-- Witness for C4: a callback returning the consumer error
`msg "boom"` on the very first token. -/
theorem c4_consumer_error_witness :
    Node.Read [("a", .str "x")] cbBoom = some (GoError.msg "boom") ∧
    ∃ pre ev, (read cbBoom (.node [("a", .str "x")]) []).1 = pre ++ [ev] ∧
      cbBoom ev.1 ev.2 = some (GoError.msg "boom") :=
  c4_consumer_error cbBoom [("a", .str "x")] (GoError.msg "boom")
    (by decide) (by decide) (by simp [read, cbBoom])

/-- C5: `IsLink(v)` holds exactly of a `Node` with the single entry
`"/" ↦ <string>`, and `LinkCast` returns exactly that single entry on a
link and fails otherwise. -/
theorem c5_islink_linkcast (v : Value) :
    (IsLink v = true ↔ ∃ s, v = Value.node [(LinkKey, Value.str s)]) ∧
    (∀ s, v = Value.node [(LinkKey, Value.str s)] →
      LinkCast v = some [(LinkKey, Value.str s)]) ∧
    (IsLink v = false → LinkCast v = none) := by
  refine ⟨⟨fun h => ?_, fun ⟨s, hs⟩ => ?_⟩, fun s hs => ?_, fun h => ?_⟩
  · match v with
    | .node vn =>
      simp only [IsLink, Bool.and_eq_true, beq_iff_eq] at h
      obtain ⟨hlk, hlen⟩ := h
      match vn, hlen with
      | [(k, u)], _ =>
        simp only [lookupOpt] at hlk
        by_cases hk : k = LinkKey
        · subst hk
          simp only [if_pos rfl] at hlk
          match u, hlk with
          | .str s, _ => exact ⟨s, rfl⟩
        · rw [if_neg hk] at hlk
          simp at hlk
    | .arr a => simp [IsLink] at h
    | .str s => simp [IsLink] at h
    | .int n => simp [IsLink] at h
    | .bool b => simp [IsLink] at h
    | .null => simp [IsLink] at h
  · subst hs
    simp [IsLink, lookupOpt, LinkKey]
  · subst hs
    simp [LinkCast, IsLink, lookupOpt, LinkKey]
  · simp [LinkCast, h]

/-- Witness for C5 at concrete inputs: a one-entry marker map is cast to
exactly its entry; the empty map is rejected. -/
theorem c5_islink_linkcast_witness :
    LinkCast (.node [(LinkKey, .str "Qm1")]) = some [(LinkKey, .str "Qm1")] ∧
    LinkCast (.node []) = none :=
  ⟨(c5_islink_linkcast (.node [(LinkKey, .str "Qm1")])).2.1 "Qm1" rfl,
   (c5_islink_linkcast (.node [])).2.2 rfl⟩

/-- C6: `Hash` fails with the identifier-absent error on an empty link
string, fails with a distinct decode error on a malformed identifier, and
returns the decoded identifier otherwise. -/
theorem c6_hash_errors (l : Link) :
    (Link.LinkStr l = "" →
      Link.Hash l = .error (GoError.msg "no hash in link")) ∧
    (Link.LinkStr l ≠ "" → validB58 (Link.LinkStr l) = false →
      Link.Hash l = .error (GoError.msg "invalid base58 digit") ∧
      GoError.msg "invalid base58 digit" ≠ GoError.msg "no hash in link") ∧
    (Link.LinkStr l ≠ "" → validB58 (Link.LinkStr l) = true →
      Link.Hash l = .ok ⟨Link.LinkStr l⟩) := by
  refine ⟨fun h => ?_, fun h hv => ⟨?_, by simp⟩, fun h hv => ?_⟩
  · simp [Link.Hash, h]
  · simp [Link.Hash, fromB58String, h, hv]
  · simp [Link.Hash, fromB58String, h, hv]

/-- Witness for C6 at concrete links: the empty identifier, a malformed
identifier (`"0"` is not a base-58 digit), and a valid identifier. -/
theorem c6_hash_errors_witness :
    Link.Hash [(LinkKey, .str "")] = .error (GoError.msg "no hash in link") ∧
    (Link.Hash [(LinkKey, .str "0")] = .error (GoError.msg "invalid base58 digit") ∧
      GoError.msg "invalid base58 digit" ≠ GoError.msg "no hash in link") ∧
    Link.Hash [(LinkKey, .str "Qm1")] = .ok ⟨"Qm1"⟩ :=
  ⟨(c6_hash_errors [(LinkKey, .str "")]).1 rfl,
   (c6_hash_errors [(LinkKey, .str "0")]).2.1 (by decide) (by decide),
   (c6_hash_errors [(LinkKey, .str "Qm1")]).2.2 (by decide) (by decide)⟩

/-- C7: `Links` maps each found link to the slash-joined sequence of raw
keys from the root, key text preserved verbatim: the single-link example
and the two-link example with `@`/`\@` raw keys produce exactly the
claimed keys. -/
theorem c7_links_paths :
    Links [("a", .node [(LinkKey, .str "Qm1")])] =
      [("a", [(LinkKey, .str "Qm1")])] ∧
    Links [("bar2", .node [("@bar", .node [(LinkKey, .str "Qm1")]),
                           ("\\@foo", .node [(LinkKey, .str "Qm1")])])] =
      [("bar2/@bar", [(LinkKey, .str "Qm1")]),
       ("bar2/\\@foo", [(LinkKey, .str "Qm1")])] :=
  ⟨rfl, rfl⟩

/-- A successful `LinkCast` only ever returns a value satisfying the
link predicate. -/
theorem LinkCast_isLink {v : Value} {l : Link} (h : LinkCast v = some l) :
    IsLink (.node l) = true := by
  unfold LinkCast at h
  by_cases hl : IsLink v = true
  · rw [if_pos hl] at h
    match v, hl, h with
    | .node vn, hl, h =>
      cases h
      exact hl
  · rw [if_neg hl] at h
    cases h

/-- A lookup in `insertGo m p l` yields either the inserted link or a
link already present in `m`. -/
theorem lookup_insertGo {m : List (String × Link)} {p q : String}
    {l x : Link} (h : lookupOpt (insertGo m p l) q = some x) :
    x = l ∨ lookupOpt m q = some x := by
  induction m with
  | nil =>
    simp only [insertGo, lookupOpt] at h
    by_cases hq : p = q
    · rw [if_pos hq] at h
      cases h
      exact Or.inl rfl
    · rw [if_neg hq] at h
      cases h
  | cons km t ih =>
    obtain ⟨k0, m0⟩ := km
    simp only [insertGo] at h
    by_cases hk : k0 = p
    · rw [if_pos hk] at h
      simp only [lookupOpt] at h ⊢
      by_cases hq : k0 = q
      · rw [if_pos hq] at h
        cases h
        exact Or.inl rfl
      · rw [if_neg hq] at h ⊢
        exact Or.inr h
    · rw [if_neg hk] at h
      simp only [lookupOpt] at h ⊢
      by_cases hq : k0 = q
      · rw [if_pos hq] at h ⊢
        exact Or.inr h
      · rw [if_neg hq] at h ⊢
        exact ih h

/-- The folding step of `Links` preserves the invariant that every
recorded value satisfies the link predicate. -/
theorem links_foldl_invariant (visits : List (String × Node)) :
    ∀ (m : List (String × Link)),
      (∀ p l, lookupOpt m p = some l → IsLink (.node l) = true) →
      ∀ p l,
        lookupOpt
          (visits.foldl
            (fun m pn =>
              match LinkCast (.node pn.2) with
              | some l => insertGo m pn.1 l
              | none => m)
            m) p = some l →
        IsLink (.node l) = true := by
  induction visits with
  | nil => exact fun m hm => hm
  | cons pn rest ih =>
    intro m hm p l
    simp only [List.foldl_cons]
    apply ih
    intro p' l' h'
    match hcast : LinkCast (.node pn.2) with
    | some lk =>
      rw [hcast] at h'
      rcases lookup_insertGo h' with h | h
      · subst h
        exact LinkCast_isLink hcast
      · exact hm p' l' h
    | none =>
      rw [hcast] at h'
      exact hm p' l' h'

/-- C10: every value stored in the mapping returned by `Links` satisfies
the link predicate — entries are recorded only when `LinkCast`
succeeds. -/
theorem c10_links_values_are_links (n : Node) (p : String) (l : Link)
    (h : lookupOpt (Links n) p = some l) : IsLink (.node l) = true := by
  refine links_foldl_invariant (walkVisits n "") [] ?_ p l h
  intro p' l' h'
  simp [lookupOpt] at h'

/-- Witness for C10 at a concrete document. -/
theorem c10_links_values_are_links_witness :
    IsLink (.node [(LinkKey, .str "Qm1")]) = true :=
  c10_links_values_are_links [("a", .node [(LinkKey, .str "Qm1")])] "a"
    [(LinkKey, .str "Qm1")] rfl

/-- C8: on well-formed links (each reachable map has unique keys, as any
Go map does), `Equal` is reflexive and symmetric; and for every pair of
links carrying string payloads under the marker key — in particular any
pair with identical key sets — different payloads make them compare
unequal. -/
theorem c8_equal_refl_symm (l1 l2 : Link)
    (h1 : wfV (.node l1) = true) (h2 : wfV (.node l2) = true) :
    Link.Equal l1 l1 = true ∧
    Link.Equal l1 l2 = Link.Equal l2 l1 ∧
    (∀ (m1 m2 : Link) (s1 s2 : String),
      lookupOpt m1 LinkKey = some (Value.str s1) →
      lookupOpt m2 LinkKey = some (Value.str s2) →
      s1 ≠ s2 → Link.Equal m1 m2 = false) := by
  refine ⟨valueEq_refl (.node l1) h1,
    valueEq_symm (.node l1) (.node l2) h1 h2, ?_⟩
  intro m1 m2 s1 s2 hm1 hm2 hne
  cases heq : Link.Equal m1 m2 with
  | false => rfl
  | true =>
    exfalso
    have hval : valueEq (.node m1) (.node m2) = true := heq
    simp only [valueEq, Bool.and_eq_true] at hval
    obtain ⟨w, hw, hvw⟩ :=
      entriesSub_iff.mp hval.2 (LinkKey, Value.str s1) (mem_of_lookupOpt hm1)
    rw [hm2] at hw
    cases Option.some_inj.mp hw
    simp only [valueEq, beq_iff_eq] at hvw
    exact hne hvw

/-- Witness for C8 at two concrete links with different payloads. -/
theorem c8_equal_refl_symm_witness :
    Link.Equal [(LinkKey, .str "Qm1")] [(LinkKey, .str "Qm1")] = true ∧
    Link.Equal [(LinkKey, .str "Qm1")] [(LinkKey, .str "Qm2")] =
      Link.Equal [(LinkKey, .str "Qm2")] [(LinkKey, .str "Qm1")] ∧
    Link.Equal [(LinkKey, .str "Qm1")] [(LinkKey, .str "Qm2")] = false :=
  ⟨(c8_equal_refl_symm [(LinkKey, .str "Qm1")] [(LinkKey, .str "Qm2")] rfl rfl).1,
   (c8_equal_refl_symm [(LinkKey, .str "Qm1")] [(LinkKey, .str "Qm2")] rfl rfl).2.1,
   (c8_equal_refl_symm [(LinkKey, .str "Qm1")] [(LinkKey, .str "Qm2")] rfl rfl).2.2
     [(LinkKey, .str "Qm1")] [(LinkKey, .str "Qm2")] "Qm1" "Qm2" rfl rfl
     (by decide)⟩

/-- C9: `{"/": ""}` satisfies the link predicate, yet `Hash` on the
corresponding link fails with the identifier-absent error, because
`LinkStr` returns the empty string. -/
theorem c9_empty_link_string :
    IsLink (.node [(LinkKey, .str "")]) = true ∧
    LinkCast (.node [(LinkKey, .str "")]) = some [(LinkKey, .str "")] ∧
    Link.LinkStr [(LinkKey, .str "")] = "" ∧
    Link.Hash [(LinkKey, .str "")] = .error (GoError.msg "no hash in link") :=
  ⟨rfl, rfl, rfl, rfl⟩

end memory
